import Mathlib

/-!
Shallow embedding of the erigon state-overlay (`SharedDomains`, package `state`)
and of the verkle bulk-commitment writer (`VerkleTreeWriter`, package `verkletrie`).

Go byte slices are modelled as `Option (List Nat)`: `none` is a nil slice,
`some l` a (possibly empty) non-nil slice.  Keys that the source converts to
strings via `toStringZeroCopy` are modelled as plain byte lists.  The maps
`SharedDomains.domains[i]` and the sorted storage btree are modelled as
association lists with first-match lookup and replace-on-insert update.
-/

set_option maxHeartbeats 1000000

abbrev Bytes := List Nat

/-- Go byte slice: `none` models a nil slice, `some l` a non-nil slice. -/
abbrev GoBytes := Option Bytes

/-- `len` of a Go byte slice (nil has length 0). -/
def goLen : GoBytes → Nat
  | none => 0
  | some l => l.length

/-- View of a Go byte slice as its byte content (nil reads as empty). -/
def goBytes : GoBytes → Bytes
  | none => []
  | some l => l

/-- `bytes.Equal`: content comparison, nil equal to empty. -/
def goBytesEq (a b : GoBytes) : Bool := goBytes a == goBytes b

/-- `binary.BigEndian.Uint64`: reads the first 8 bytes, panics (`none`) when
the slice is shorter than 8 bytes. -/
def beUint64 (b : Bytes) : Option Nat :=
  if b.length < 8 then none
  else some ((b.take 8).foldl (fun a x => a * 256 + x) 0)

/-- `dataWithPrevStep`: cached value plus the step of the overwritten value. -/
structure DataWithPrevStep where
  data : GoBytes
  prevStep : Nat
  deriving DecidableEq

/-- In-memory per-domain map (`map[string]dataWithPrevStep` / storage btree). -/
abbrev KVMap := List (Bytes × DataWithPrevStep)

/-- Map lookup, first match wins. -/
def mapGet : KVMap → Bytes → Option DataWithPrevStep
  | [], _ => none
  | (k', v) :: rest, k => if k' = k then some v else mapGet rest k

/-- Map update: replace any existing binding for `k`. -/
def mapSet (m : KVMap) (k : Bytes) (v : DataWithPrevStep) : KVMap :=
  (k, v) :: m.filter (fun e => e.1 != k)

/-- The distinct keys of an association list (first occurrences kept). -/
def mapKeys (m : KVMap) : List Bytes := (m.map Prod.fst).dedup

/-- `kv.Domain`: the closed enumeration of logical key/value namespaces. -/
inductive Domain where
  | Accounts | Storage | Code | Commitment | Receipt | RCache
  deriving DecidableEq

/-- `kv.Domain.String()` (names modelled; only their distinctness matters). -/
def domainName : Domain → String
  | .Accounts => "accounts"
  | .Storage => "storage"
  | .Code => "code"
  | .Commitment => "commitment"
  | .Receipt => "receipt"
  | .RCache => "rcache"

/-- `CodeSizeTableFake`: the fake read-set table name used by `ReadsValid`. -/
def CodeSizeTableFake : String := "CodeSize"

/-- One buffered mutation pushed to a `DomainBufferedWriter`
(`PutWithPrev` / `DeleteWithPrev`; the `k2` argument is nil at every call
site modelled here, so it is omitted). -/
inductive WOp where
  | put (k : Bytes) (val : GoBytes) (txNum : Nat) (prev : GoBytes) (prevStep : Nat)
  | del (k : Bytes) (txNum : Nat) (prev : GoBytes) (prevStep : Nat)
  deriving DecidableEq

/-- One recorded `TouchKey` notification to the commitment context. -/
abbrev Touch := Domain × Bytes × GoBytes

/-- A saved past changeset, keyed by block number and hash
(`pastChangesAccumulator`; its internal diff lists are irrelevant to the
claims and are left abstract as the key pair). -/
abbrev PastChange := Nat × Bytes

/-- `SharedDomains`: the in-memory state overlay. -/
structure State where
  txNum : Nat
  blockNum : Nat
  stepSize : Nat
  domains : Domain → KVMap
  storage : KVMap
  touches : List Touch
  writer : Domain → List WOp
  pastChanges : List PastChange
  estSize : Int

/-- The underlying versioned store, as seen through `sd.roTtx`:
a point read per domain plus the live storage-domain entries that its
sorted cursor would enumerate (key, value, step). -/
structure Store where
  getLatest : Domain → Bytes → Except String (GoBytes × Nat)
  storageEntries : List (Bytes × Bytes × Nat)

/-- Result of an overlay mutation: Go panic, error return (carrying the
overlay state at the moment of the return), or success. -/
inductive Res where
  | panicked : Res
  | err (e : String) (st : State) : Res
  | ok (st : State) : Res

def Res.isOk : Res → Bool
  | .ok _ => true
  | _ => false

def Res.stateOr (r : Res) (dflt : State) : State :=
  match r with
  | .ok st => st
  | .err _ st => st
  | .panicked => dflt

/-- `SharedDomainsCommitmentContext.TouchKey`: record a touched key. -/
def touchKey (st : State) (d : Domain) (k : Bytes) (val : GoBytes) : State :=
  { st with touches := (d, k, val) :: st.touches }

/-- Append one buffered mutation to the domain write buffer. -/
def pushWriter (st : State) (d : Domain) (op : WOp) : State :=
  { st with writer := fun d' => if d' = d then st.writer d ++ [op] else st.writer d' }

/-- `SharedDomains.put`: cache a value in the overlay, routing the storage
domain to the sorted storage map, and update the size estimate. -/
def putMem (st : State) (d : Domain) (k : Bytes) (val : GoBytes) : State :=
  let v : DataWithPrevStep := { data := val, prevStep := st.txNum / st.stepSize }
  if d = .Storage then
    { st with
      storage := mapSet st.storage k v,
      estSize := st.estSize +
        match mapGet st.storage k with
        | some old => (goLen val : Int) - (goLen old.data : Int)
        | none => (k.length : Int) + (goLen val : Int) }
  else
    { st with
      domains := fun d' => if d' = d then mapSet (st.domains d) k v else st.domains d',
      estSize := st.estSize +
        match mapGet (st.domains d) k with
        | some old => (goLen val : Int) - (goLen old.data : Int)
        | none => (k.length : Int) + (goLen val : Int) }

/-- `SharedDomains.get`: cached value by key, storage domain from the sorted
map, every other domain from its own map. -/
def sdGet (st : State) (d : Domain) (k : Bytes) : Option (GoBytes × Nat) :=
  if d = .Storage then (mapGet st.storage k).map fun x => (x.data, x.prevStep)
  else (mapGet (st.domains d) k).map fun x => (x.data, x.prevStep)

/-- Modelled from the spec: `SharedDomains.LatestCommitment` is not among the
provided sources; per the read contract of the spec (overlay lookup first,
on a miss delegate to the versioned store) it consults the in-memory
commitment map and falls back to the store. -/
def LatestCommitment (st : State) (store : Store) (k : Bytes) :
    Except String (GoBytes × Nat) :=
  match sdGet st .Commitment k with
  | some (v, s) => .ok (v, s)
  | none => store.getLatest .Commitment k

/-- `SharedDomains.GetLatest`: commitment domain goes to `LatestCommitment`;
otherwise overlay first, then the store read (wrapping store errors). -/
def GetLatest (st : State) (store : Store) (d : Domain) (k : Bytes) :
    Except String (GoBytes × Nat) :=
  if d = .Commitment then LatestCommitment st store k
  else
    match sdGet st d k with
    | some (v, s) => .ok (v, s)
    | none =>
      match store.getLatest d k with
      | .ok (v, s) => .ok (v, s)
      | .error e => .error ("storage read error: " ++ e)

/-- The shared previous-value resolution at the head of `DomainPut` and
`DomainDel`: when the caller passes a nil previous value it is fetched via
`GetLatest`, otherwise the supplied value and step are used as-is. -/
def resolvePrev (st : State) (store : Store) (d : Domain) (k : Bytes)
    (prevVal : GoBytes) (prevStep : Nat) : Except String (GoBytes × Nat) :=
  match prevVal with
  | none => GetLatest st store d k
  | some v => .ok (some v, prevStep)

/-- `SharedDomains.updateAccountData`: touch, cache, buffer a put. -/
def updateAccountData (st : State) (addr : Bytes) (account prev : GoBytes)
    (prevStep : Nat) : State :=
  pushWriter (putMem (touchKey st .Accounts addr account) .Accounts addr account)
    .Accounts (.put addr account st.txNum prev prevStep)

/-- `SharedDomains.updateAccountCode`: touch, cache, buffer a put, or a
delete when the code is empty. -/
def updateAccountCode (st : State) (addr : Bytes) (code prev : GoBytes)
    (prevStep : Nat) : State :=
  let st1 := putMem (touchKey st .Code addr code) .Code addr code
  if goLen code = 0 then pushWriter st1 .Code (.del addr st.txNum prev prevStep)
  else pushWriter st1 .Code (.put addr code st.txNum prev prevStep)

/-- `SharedDomains.updateCommitmentData`: cache and buffer (no touch). -/
def updateCommitmentData (st : State) (pre : Bytes) (data prev : GoBytes)
    (prevStep : Nat) : State :=
  pushWriter (putMem st .Commitment pre data) .Commitment
    (.put pre data st.txNum prev prevStep)

/-- `SharedDomains.writeAccountStorage`: join the composite key (the `loc`
part is nil at the modelled call sites), then touch, cache, buffer a put. -/
def writeAccountStorage (st : State) (addr : Bytes) (loc : GoBytes)
    (value prev : GoBytes) (prevStep : Nat) : State :=
  let composite := addr ++ goBytes loc
  pushWriter (putMem (touchKey st .Storage composite value) .Storage composite value)
    .Storage (.put composite value st.txNum prev prevStep)

/-- `SharedDomains.delAccountStorage`: touch and cache a nil value, buffer a
delete. -/
def delAccountStorage (st : State) (addr : Bytes) (loc : GoBytes)
    (prev : GoBytes) (prevStep : Nat) : State :=
  let composite := addr ++ goBytes loc
  pushWriter (putMem (touchKey st .Storage composite none) .Storage composite none)
    .Storage (.del composite st.txNum prev prevStep)

/-- `SharedDomains.ClearRam`: empty every in-memory map, optionally reset the
commitment context; the write buffers and past changesets are untouched. -/
def ClearRam (st : State) (resetCommitment : Bool) : State :=
  { st with
    domains := fun _ => [],
    storage := [],
    touches := if resetCommitment then [] else st.touches,
    estSize := 0 }

/-- The live storage-overlay entries under a given key pre of the overlay
(value present, nil data is a pending delete and is skipped). Enumerated
through the distinct keys so that stale shadowed bindings are ignored, the
way the btree map exposes one binding per key. -/
def ramLiveUnder (st : State) (p : Bytes) : List (Bytes × Bytes × Nat) :=
  (mapKeys st.storage).filterMap fun k =>
    if p.isPrefixOf k then
      match mapGet st.storage k with
      | some { data := some v, prevStep := s } => some (k, v, s)
      | _ => none
    else none

/-- The store-side storage entries under the key pre that are not shadowed
by any overlay binding (a live or nil overlay binding takes priority). -/
def diskUnder (st : State) (store : Store) (p : Bytes) : List (Bytes × Bytes × Nat) :=
  store.storageEntries.filter fun e => p.isPrefixOf e.1 && (mapGet st.storage e.1).isNone

/-- Modelled from the spec: `Domain.debugIteratePrefix` (the engine behind
`SharedDomains.IteratePrefix`) is not among the provided sources; per the
spec it merges the sorted in-memory storage overlay with the store cursor,
yielding (key, value, step) triples, overlay entries shadowing the store and
nil overlay entries acting as deletions. The enumeration order is immaterial
to the claims settled here. -/
def mergedPrefixEntries (st : State) (store : Store) (p : Bytes) :
    List (Bytes × Bytes × Nat) :=
  ramLiveUnder st p ++ diskUnder st store p

/-- The storage arm of `SharedDomains.DomainDel` (the form in which
`DomainDelPrefix` invokes it): resolve the previous value, then
`delAccountStorage`. -/
def domainDelStorage (st : State) (store : Store) (k : Bytes)
    (prevVal : GoBytes) (prevStep : Nat) : Res :=
  match resolvePrev st store .Storage k prevVal prevStep with
  | .error e => .err e st
  | .ok (prev, pstep) => .ok (delAccountStorage st k none prev pstep)

/-- The code arm of `SharedDomains.DomainDel` (the form in which
`deleteAccount` invokes it): resolve the previous value; a nil previous
value makes the delete a no-op, otherwise the code entry is rewritten to
nil via `updateAccountCode`. -/
def domainDelCode (st : State) (store : Store) (k : Bytes)
    (prevVal : GoBytes) (prevStep : Nat) : Res :=
  match resolvePrev st store .Code k prevVal prevStep with
  | .error e => .err e st
  | .ok (prev, pstep) =>
    if prev = none then .ok st
    else .ok (updateAccountCode st k none prev pstep)

/-- The deletion loop of `SharedDomains.DomainDelPrefix`: delete each
snapshotted (key, value, step) triple through the storage delete path,
aborting on the first failure. -/
def delTombs (store : Store) : State → List (Bytes × Bytes × Nat) → Res
  | st, [] => .ok st
  | st, (k, v, s) :: rest =>
    match domainDelStorage st store k (some v) s with
    | .ok st' => delTombs store st' rest
    | r => r

/-- `SharedDomains.DomainDelPrefix` (named with an `Fn` suffix): only the
storage domain is supported; all (key, value, step) triples under the
given key pre are snapshotted via the merged iterator, then deleted one by
one. The diagnostic re-scan is guarded by `assert.Enable`, which defaults
to off and is modelled as off. -/
def DomainDelPrefixFn (st : State) (store : Store) (d : Domain) (p : Bytes) : Res :=
  match d with
  | .Storage => delTombs store st (mergedPrefixEntries st store p)
  | _ => .err "DomainDelPrefix: not supported" st

/-- `SharedDomains.deleteAccount`: cascade a storage-prefix delete and a code
delete, then touch, cache and buffer the account delete itself. -/
def deleteAccount (st : State) (store : Store) (addr : Bytes)
    (prev : GoBytes) (prevStep : Nat) : Res :=
  match DomainDelPrefixFn st store .Storage addr with
  | .ok st1 =>
    match domainDelCode st1 store addr none prevStep with
    | .ok st2 =>
      .ok (pushWriter (putMem (touchKey st2 .Accounts addr none) .Accounts addr none)
            .Accounts (.del addr st2.txNum prev prevStep))
    | r => r
  | r => r

/-- `SharedDomains.DomainDel`: resolve the previous value, then dispatch per
domain; the accounts arm cascades through `deleteAccount`. -/
def DomainDel (st : State) (store : Store) (d : Domain) (k : Bytes)
    (prevVal : GoBytes) (prevStep : Nat) : Res :=
  match resolvePrev st store d k prevVal prevStep with
  | .error e => .err e st
  | .ok (prev, pstep) =>
    match d with
    | .Accounts => deleteAccount st store k prev pstep
    | .Storage => .ok (delAccountStorage st k none prev pstep)
    | .Code =>
      if prev = none then .ok st
      else .ok (updateAccountCode st k none prev pstep)
    | .Commitment => .ok (updateCommitmentData st k none prev pstep)
    | _ => .ok (pushWriter (putMem st d k none) d (.del k st.txNum prev pstep))

/-- `SharedDomains.DomainPut`: a non-nil `k2` panics; a nil value errors out;
the previous value is resolved if absent; then per-domain dispatch, where the
code and default arms suppress puts whose value equals the previous value,
and the commitment and read-cache arms cache and buffer unconditionally. -/
def DomainPut (st : State) (store : Store) (d : Domain) (k1 : Bytes)
    (k2 : GoBytes) (val prevVal : GoBytes) (prevStep : Nat) : Res :=
  match k2 with
  | some _ => .panicked
  | none =>
    match val with
    | none => .err ("DomainPut: " ++ domainName d ++ ", trying to put nil value. not allowed") st
    | some _ =>
      match resolvePrev st store d k1 prevVal prevStep with
      | .error e => .err e st
      | .ok (prev, pstep) =>
        match d with
        | .Accounts => .ok (updateAccountData st k1 val prev pstep)
        | .Storage => .ok (writeAccountStorage st k1 none val prev pstep)
        | .Code =>
          if goBytesEq prev val then .ok st
          else .ok (updateAccountCode st k1 val prev pstep)
        | .Commitment =>
          .ok (pushWriter (putMem st .Commitment k1 val) .Commitment
                (.put k1 val st.txNum prev pstep))
        | .RCache =>
          .ok (pushWriter (putMem st .RCache k1 val) .RCache
                (.put k1 val st.txNum prev pstep))
        | .Receipt =>
          if goBytesEq prev val then .ok st
          else .ok (pushWriter (putMem st .Receipt k1 val) .Receipt
                (.put k1 val st.txNum prev pstep))

/-- The read set handed to `ReadsValid`: parallel key and expected-value
lists (`KvList`). -/
structure KvList where
  keys : List Bytes
  vals : List GoBytes

/-- The per-table scan of `ReadsValid` for a value-comparison table:
a key present in the overlay map with data not byte-equal to the recorded
expectation yields `false`; running past the end of the value list is an
index panic (`none`). -/
def checkDomainList (m : KVMap) : List Bytes → List GoBytes → Option Bool
  | [], _ => some true
  | _ :: _, [] => none
  | k :: ks, v :: vs =>
    match mapGet m k with
    | some d =>
      if goBytesEq v d.data then checkDomainList m ks vs else some false
    | none => checkDomainList m ks vs

/-- The `CodeSize` scan of `ReadsValid`: the expectation is an 8-byte
big-endian length compared against the cached code length. -/
def checkCodeSizeList (m : KVMap) : List Bytes → List GoBytes → Option Bool
  | [], _ => some true
  | _ :: _, [] => none
  | k :: ks, v :: vs =>
    match mapGet m k with
    | some d =>
      match beUint64 (goBytes v) with
      | none => none
      | some n => if n ≠ goLen d.data then some false else checkCodeSizeList m ks vs
    | none => checkCodeSizeList m ks vs

/-- `SharedDomains.ReadsValid`: scan every listed table; an unrecognized
table name panics (`none`); a mismatch anywhere yields `false`. -/
def ReadsValid (st : State) : List (String × KvList) → Option Bool
  | [] => some true
  | (t, l) :: rest =>
    let r : Option Bool :=
      if t = domainName .Accounts then checkDomainList (st.domains .Accounts) l.keys l.vals
      else if t = domainName .Code then checkDomainList (st.domains .Code) l.keys l.vals
      else if t = domainName .Storage then checkDomainList st.storage l.keys l.vals
      else if t = CodeSizeTableFake then checkCodeSizeList (st.domains .Code) l.keys l.vals
      else none
    match r with
    | none => none
    | some false => some false
    | some true => ReadsValid st rest

/-- External outcomes of one `SharedDomains.Flush`: failure points of the
diff persistence, of the commitment computation, and of the buffered-writer
drain (the optional prune pass is disabled by default and not modelled). -/
structure FlushEnv where
  writeDiffErr : Option String
  computeErr : Option String
  writerFlushErr : Option String

/-- `SharedDomains.Flush`: persist and clear the past changesets, compute
the commitment (modelled from the spec: the commitment computation resolves
the pending touches into a root hash and, per the spec, leaves the in-memory
read cache untouched), drain the write buffers into the store, close the
buffers. Errors abort and leave the overlay as of that point. -/
def Flush (st : State) (env : FlushEnv) : Res :=
  match env.writeDiffErr, st.pastChanges with
  | some e, _ :: _ => .err e st
  | _, _ =>
    let st1 := { st with pastChanges := [] }
    match env.computeErr with
    | some e => .err e st1
    | none =>
      let st2 := { st1 with touches := [] }
      match env.writerFlushErr with
      | some e => .err e st2
      | none => .ok { st2 with writer := fun _ => [] }

/-- One step of `SharedDomains.Unwind`, as observable from outside. -/
inductive UStep where
  | flush
  | storeUnwind (txTo : Nat)
  | clearRam
  | setTxNum (n : Nat)
  | setBlockNum (n : Nat)
  deriving DecidableEq

/-- External outcomes of one `SharedDomains.Unwind`: the two flushes and the
native store unwind. -/
structure UnwindEnv where
  flush1 : FlushEnv
  storeUnwindErr : Option String
  flush2 : FlushEnv

/-- `SharedDomains.Unwind`: flush, store unwind, clear ram with commitment
reset, set the transaction and block numbers, final flush; any failure
returns immediately. The returned list records the steps performed. -/
def Unwind (st : State) (env : UnwindEnv) (blockUnwindTo txUnwindTo : Nat) :
    List UStep × Res :=
  match Flush st env.flush1 with
  | .ok st1 =>
    match env.storeUnwindErr with
    | some e => ([.flush, .storeUnwind txUnwindTo], .err e st1)
    | none =>
      let st4 := { ClearRam st1 true with txNum := txUnwindTo, blockNum := blockUnwindTo }
      match Flush st4 env.flush2 with
      | .ok st5 =>
        ([.flush, .storeUnwind txUnwindTo, .clearRam, .setTxNum txUnwindTo,
          .setBlockNum blockUnwindTo, .flush], .ok st5)
      | r =>
        ([.flush, .storeUnwind txUnwindTo, .clearRam, .setTxNum txUnwindTo,
          .setBlockNum blockUnwindTo, .flush], r)
  | r => ([.flush], r)

/-- Minimal big-endian byte string of a natural number, least significant
byte first before reversal (`uint256.Int.ToBig().Bytes()` is the reverse of
this list; zero gives the empty list). -/
def leBytes (n : Nat) : Bytes :=
  if h : n = 0 then [] else n % 256 :: leBytes (n / 256)
termination_by n
decreasing_by exact Nat.div_lt_self (Nat.pos_of_ne_zero h) (by norm_num)

/-- `x.ToBig().Bytes()`: minimal big-endian byte string, empty for zero. -/
def beBytes (n : Nat) : Bytes := (leBytes n).reverse

/-- The write loop of `int256ToVerkleFormat`: the i-th big-endian byte is
written at buffer position `len-1-i`, so the first byte lands at position
`rest.length` and the loop walks down to position 0. -/
def int256Write : Bytes → Bytes → Bytes
  | [], buf => buf
  | b :: rest, buf => int256Write rest (buf.set rest.length b)

/-- `int256ToVerkleFormat`: write the big-endian bytes of `x` reversed into
the front of `buffer` (no write at all when `x` is zero). -/
def int256ToVerkleFormat (x : Nat) (buffer : Bytes) : Bytes :=
  int256Write (beBytes x) buffer

/-- The 8 little-endian bytes of a 64-bit value. -/
def u64LE (n : Nat) : Bytes := (List.range 8).map fun i => n / 256 ^ i % 256

/-- `binary.LittleEndian.PutUint64(buf, v)`: overwrite the first 8 bytes of
`buf` with the little-endian encoding of `v`. -/
def putUint64LE (buf : Bytes) (v : Nat) : Bytes := u64LE v ++ buf.drop 8

/-- `copy(dst, src)`: copy `min len` bytes of `src` over the front of `dst`. -/
def goCopy (dst src : Bytes) : Bytes :=
  src.take (min dst.length src.length) ++ dst.drop (min dst.length src.length)

/-- Modelled from the spec: the `vtree` leaf-key constants are not among the
provided sources; the account-header leaf layout assigns them small distinct
byte values (only distinctness matters to the claims). -/
def VersionLeafKey : Nat := 0
def BalanceLeafKey : Nat := 1
def NonceLeafKey : Nat := 2
def CodeKeccakLeafKey : Nat := 3
def CodeSizeLeafKey : Nat := 4

/-- One derived 32-byte sub-key: a zeroed 32-byte array, the first 31 bytes
of the version key copied in, and the last byte set to the leaf constant
(the `copy` plus index-31 assignment pairs of `UpdateAccount`). -/
def leafSubKey (versionKey : Bytes) (leaf : Nat) : Bytes :=
  (goCopy (List.replicate 32 0) (versionKey.take 31)).set 31 leaf

/-- `accounts.Account`, restricted to the fields `UpdateAccount` reads. -/
structure Account where
  nonce : Nat
  balance : Nat
  codeHash : Bytes

/-- `VerkleTreeWriter.UpdateAccount`: the ordered list of (key, value) pairs
staged into the sort-merge collector — the version marker, the nonce and
balance leaves, and when the account is a contract also the code-hash and
code-size leaves. -/
def UpdateAccount (versionKey : Bytes) (codeSize : Nat) (isContract : Bool)
    (acc : Account) : List (Bytes × Bytes) :=
  let codeHashKey := leafSubKey versionKey CodeKeccakLeafKey
  let nonceKey := leafSubKey versionKey NonceLeafKey
  let balanceKey := leafSubKey versionKey BalanceLeafKey
  let codeSizeKey := leafSubKey versionKey CodeSizeLeafKey
  let balance := int256ToVerkleFormat acc.balance (List.replicate 32 0)
  let nonce := putUint64LE (List.replicate 32 0) acc.nonce
  [(versionKey, [0]), (nonceKey, nonce), (balanceKey, balance)] ++
    (if isContract then
      let cs := putUint64LE (List.replicate 32 0) codeSize
      [(codeHashKey, acc.codeHash), (codeSizeKey, cs)]
    else [])

/-- A 32-byte hash value. -/
abbrev VHash := Bytes

/-- `common.Hash{}`, the all-zero hash. -/
def zeroVHash : VHash := List.replicate 32 0

/-- One externally observable step of a verkle commit. -/
inductive VStep where
  | clearTable
  | readRootNode (root : VHash)
  | loadStaged
  | collectRemaining
  | loadVerkleNodes
  | flushNodes
  deriving DecidableEq

/-- External outcomes of a verkle commit: failure points of the table clear,
the root-node read, the staged load, the remaining-node collection and the
final load or flush, plus the resulting root commitments. -/
structure VerkleEnv where
  clearTableErr : Option String
  readRootErr : Option String
  loadStagedErr : Option String
  collectErr : Option String
  finalLoadErr : Option String
  scratchRoot : VHash
  incrRoot : VHash

/-- `VerkleTreeWriter.CommitVerkleTreeFromScratch`: clear the persisted
verkle-trie table, rebuild a fresh root from the staged updates, collect the
remaining nodes, bulk-load them; each step aborts the rest on failure. -/
def CommitVerkleTreeFromScratch (env : VerkleEnv) : List VStep × Except String VHash :=
  match env.clearTableErr with
  | some e => ([.clearTable], .error e)
  | none =>
    match env.loadStagedErr with
    | some e => ([.clearTable, .loadStaged], .error e)
    | none =>
      match env.collectErr with
      | some e => ([.clearTable, .loadStaged, .collectRemaining], .error e)
      | none =>
        match env.finalLoadErr with
        | some e =>
          ([.clearTable, .loadStaged, .collectRemaining, .loadVerkleNodes], .error e)
        | none =>
          ([.clearTable, .loadStaged, .collectRemaining, .loadVerkleNodes],
            .ok env.scratchRoot)

/-- `VerkleTreeWriter.CommitVerkleTree`: a non-zero root resolves the root
node and updates it incrementally from the staged entries; a zero root
delegates wholesale to `CommitVerkleTreeFromScratch`. -/
def CommitVerkleTree (env : VerkleEnv) (root : VHash) : List VStep × Except String VHash :=
  if root ≠ zeroVHash then
    match env.readRootErr with
    | some e => ([.readRootNode root], .error e)
    | none =>
      match env.loadStagedErr with
      | some e => ([.readRootNode root, .loadStaged], .error e)
      | none =>
        match env.finalLoadErr with
        | some e => ([.readRootNode root, .loadStaged, .flushNodes], .error e)
        | none => ([.readRootNode root, .loadStaged, .flushNodes], .ok env.incrRoot)
  else CommitVerkleTreeFromScratch env

/-- Overlay read through a mutation result (used to observe outcomes). -/
def resGet (r : Res) (d : Domain) (k : Bytes) : Option (GoBytes × Nat) :=
  match r with
  | .ok st => sdGet st d k
  | .err _ st => sdGet st d k
  | .panicked => none

/-- The map that `ReadsValid` checks a given table name against. -/
def overlayMapOf (st : State) (t : String) : KVMap :=
  if t = domainName .Accounts then st.domains .Accounts
  else if t = domainName .Code then st.domains .Code
  else st.storage

/-- A freshly created, empty overlay bound to step size 1. -/
def initState : State :=
  { txNum := 0, blockNum := 0, stepSize := 1, domains := fun _ => [],
    storage := [], touches := [], writer := fun _ => [], pastChanges := [],
    estSize := 0 }

/-- A store whose point reads always miss and with no storage entries. -/
def store0 : Store := { getLatest := fun _ _ => .ok (none, 0), storageEntries := [] }

/-- A store holding byte value `[1]` at step 5 under every key. -/
def storeA : Store := { getLatest := fun _ _ => .ok (some [1], 5), storageEntries := [] }

/-- A store holding byte value `[2]` at step 0 under every key. -/
def storeB : Store := { getLatest := fun _ _ => .ok (some [2], 0), storageEntries := [] }

/-- A store that misses on point reads but exposes one live storage entry
with key `[1, 5]` (under account-key `[1]`). -/
def storeC : Store :=
  { getLatest := fun _ _ => .ok (none, 0), storageEntries := [([1, 5], [7], 3)] }

/-- A flush environment in which every external step succeeds. -/
def fe0 : FlushEnv := { writeDiffErr := none, computeErr := none, writerFlushErr := none }

/-- An unwind environment in which every external step succeeds. -/
def env0 : UnwindEnv := { flush1 := fe0, storeUnwindErr := none, flush2 := fe0 }

/-- An overlay holding one cached accounts entry and one live storage entry
under the account-key `[1]`, plus a cached code entry for `[1]`. -/
def stC : State :=
  putMem (putMem (putMem initState .Accounts [1] (some [9])) .Storage [1, 3] (some [4]))
    .Code [1] (some [8])

/-- The overlay state produced by flushing `stC` (used as a witness input). -/
def c6State : State := Res.stateOr (Flush stC fe0) initState

/-- The overlay state after a successful account delete of key `[1]` on
`stC` against `storeC` (used as a witness input). -/
def c4State : State := Res.stateOr (DomainDel stC storeC .Accounts [1] (some [9]) 0) initState

/-- The overlay state after a successful storage prefix delete of `[1]` on
`stC` against `storeC` (used as a witness input). -/
def c5State : State := Res.stateOr (DomainDelPrefixFn stC storeC .Storage [1]) initState

/-- The overlay state after a plain accounts put (used as a witness input). -/
def c1State : State := updateAccountData initState [1] (some [2, 3]) (some [9]) 0

/-- The overlay states reached inside a fully successful `Unwind` to
block 3, transaction 40 (used as witness inputs). -/
def c2State1 : State := Res.stateOr (Flush initState fe0) initState
def c2State5 : State :=
  Res.stateOr (Flush { ClearRam c2State1 true with txNum := 40, blockNum := 3 } fe0) initState

/-- A verkle environment in which every external step succeeds. -/
def venv0 : VerkleEnv :=
  { clearTableErr := none, readRootErr := none, loadStagedErr := none,
    collectErr := none, finalLoadErr := none,
    scratchRoot := List.replicate 32 7, incrRoot := List.replicate 32 8 }

/-- A non-zero 32-byte root hash. -/
def root1 : VHash := 1 :: List.replicate 31 0

/-- A concrete 32-byte version key (used as a witness input). -/
def vkW : Bytes := List.range 32

/-- A read set expecting account `[1]` to hold `[5]` (used as a witness
input; `stC` holds `[9]` there, so the read set is stale). -/
def rl1 : List (String × KvList) :=
  [("accounts", { keys := [[1]], vals := [some [5]] })]

/-! ### Lemmas about the association-list maps -/

theorem mapGet_mapSet_self (m : KVMap) (k : Bytes) (v : DataWithPrevStep) :
    mapGet (mapSet m k v) k = some v := by
  unfold mapSet mapGet
  rw [if_pos rfl]

theorem mapGet_filter_ne (m : KVMap) (k k' : Bytes) (h : k' ≠ k) :
    mapGet (m.filter (fun e => e.1 != k)) k' = mapGet m k' := by
  induction m with
  | nil => rfl
  | cons e rest ih =>
    obtain ⟨ek, ev⟩ := e
    by_cases he : ek = k
    · have hf : List.filter (fun e => e.1 != k) ((ek, ev) :: rest) =
          List.filter (fun e => e.1 != k) rest := by
        rw [List.filter_cons]
        simp [he]
      have hne : ek ≠ k' := by rw [he]; exact Ne.symm h
      rw [hf, ih]
      simp [mapGet, hne]
    · have hf : List.filter (fun e => e.1 != k) ((ek, ev) :: rest) =
          (ek, ev) :: List.filter (fun e => e.1 != k) rest := by
        rw [List.filter_cons]
        simp [he]
      rw [hf]
      by_cases h2 : ek = k'
      · simp [mapGet, h2]
      · simp [mapGet, h2, ih]

theorem mapGet_mapSet_ne (m : KVMap) (k k' : Bytes) (v : DataWithPrevStep) (h : k' ≠ k) :
    mapGet (mapSet m k v) k' = mapGet m k' := by
  unfold mapSet
  have : mapGet ((k, v) :: m.filter (fun e => e.1 != k)) k' =
      mapGet (m.filter (fun e => e.1 != k)) k' := by
    simp [mapGet, Ne.symm h]
  rw [this, mapGet_filter_ne m k k' h]

theorem mem_keys_of_mapGet (m : KVMap) (k : Bytes) (d : DataWithPrevStep)
    (h : mapGet m k = some d) : k ∈ mapKeys m := by
  unfold mapKeys
  rw [List.mem_dedup]
  induction m with
  | nil => simp [mapGet] at h
  | cons e rest ih =>
    obtain ⟨ek, ev⟩ := e
    by_cases he : ek = k
    · subst he; simp
    · simp only [mapGet, if_neg he] at h
      simpa using Or.inr (ih h)

theorem mapGet_isSome_of_mem_keys (m : KVMap) (k : Bytes) (h : k ∈ mapKeys m) :
    ∃ d, mapGet m k = some d := by
  unfold mapKeys at h
  rw [List.mem_dedup] at h
  induction m with
  | nil => simp at h
  | cons e rest ih =>
    obtain ⟨ek, ev⟩ := e
    by_cases he : ek = k
    · exact ⟨ev, by simp [mapGet, he]⟩
    · simp only [List.map_cons, List.mem_cons] at h
      rcases h with h | h
      · exact absurd h.symm he
      · obtain ⟨d, hd⟩ := ih h
        exact ⟨d, by simp [mapGet, he, hd]⟩

/-! ### Frame lemmas for the overlay primitives -/

theorem get_touchKey (st : State) (a : Domain) (b : Bytes) (c : GoBytes)
    (d : Domain) (k : Bytes) : sdGet (touchKey st a b c) d k = sdGet st d k := rfl

theorem get_pushWriter (st : State) (a : Domain) (op : WOp)
    (d : Domain) (k : Bytes) : sdGet (pushWriter st a op) d k = sdGet st d k := rfl

theorem putMem_txNum (st : State) (d : Domain) (k : Bytes) (val : GoBytes) :
    (putMem st d k val).txNum = st.txNum := by
  unfold putMem; split <;> rfl

theorem putMem_stepSize (st : State) (d : Domain) (k : Bytes) (val : GoBytes) :
    (putMem st d k val).stepSize = st.stepSize := by
  unfold putMem; split <;> rfl

theorem putMem_pastChanges (st : State) (d : Domain) (k : Bytes) (val : GoBytes) :
    (putMem st d k val).pastChanges = st.pastChanges := by
  unfold putMem; split <;> rfl

theorem putMem_storage_ne (st : State) (d : Domain) (k : Bytes) (val : GoBytes)
    (h : d ≠ .Storage) : (putMem st d k val).storage = st.storage := by
  unfold putMem; rw [if_neg h]

theorem putMem_storage_self (st : State) (k : Bytes) (val : GoBytes) :
    (putMem st .Storage k val).storage =
      mapSet st.storage k { data := val, prevStep := st.txNum / st.stepSize } := by
  unfold putMem; rw [if_pos rfl]

theorem putMem_domains_ne (st : State) (d : Domain) (k : Bytes) (val : GoBytes)
    (d' : Domain) (h : d' ≠ d) : (putMem st d k val).domains d' = st.domains d' := by
  unfold putMem; split
  · rfl
  · simp [h]

theorem putMem_domains_self (st : State) (d : Domain) (k : Bytes) (val : GoBytes)
    (h : d ≠ .Storage) : (putMem st d k val).domains d =
      mapSet (st.domains d) k { data := val, prevStep := st.txNum / st.stepSize } := by
  unfold putMem; rw [if_neg h]; simp

theorem get_putMem_self (st : State) (d : Domain) (k : Bytes) (val : GoBytes) :
    sdGet (putMem st d k val) d k = some (val, st.txNum / st.stepSize) := by
  unfold sdGet
  by_cases hd : d = .Storage
  · subst hd
    rw [if_pos rfl, putMem_storage_self, mapGet_mapSet_self]
    rfl
  · rw [if_neg hd, putMem_domains_self st d k val hd, mapGet_mapSet_self]
    rfl

theorem get_eq_of_maps (st st' : State) (hd : st'.domains = st.domains)
    (hs : st'.storage = st.storage) (d : Domain) (k : Bytes) :
    sdGet st' d k = sdGet st d k := by
  unfold sdGet; rw [hd, hs]

theorem GetLatest_of_get (st : State) (store : Store) (d : Domain) (k : Bytes)
    (v : GoBytes) (s : Nat) (h : sdGet st d k = some (v, s)) :
    GetLatest st store d k = .ok (v, s) := by
  unfold GetLatest LatestCommitment
  by_cases hd : d = .Commitment
  · subst hd; rw [if_pos rfl, h]
  · rw [if_neg hd, h]

/-! ### Reads through the domain update helpers -/

theorem get_updateAccountData (st : State) (addr : Bytes) (account prev : GoBytes)
    (ps : Nat) : sdGet (updateAccountData st addr account prev ps) .Accounts addr =
      some (account, st.txNum / st.stepSize) := by
  unfold updateAccountData
  rw [get_pushWriter, get_putMem_self]
  rfl

theorem get_updateAccountCode (st : State) (addr : Bytes) (code prev : GoBytes)
    (ps : Nat) : sdGet (updateAccountCode st addr code prev ps) .Code addr =
      some (code, st.txNum / st.stepSize) := by
  unfold updateAccountCode
  split <;> rw [get_pushWriter, get_putMem_self] <;> rfl

theorem get_writeAccountStorage_nilLoc (st : State) (k1 : Bytes) (val prev : GoBytes)
    (ps : Nat) : sdGet (writeAccountStorage st k1 none val prev ps) .Storage k1 =
      some (val, st.txNum / st.stepSize) := by
  unfold writeAccountStorage
  simp only [goBytes, List.append_nil]
  rw [get_pushWriter, get_putMem_self]
  rfl

/-! ### Flush and unwind frame lemmas -/

theorem Flush_ok_frame (st : State) (env : FlushEnv) (st' : State)
    (h : Flush st env = .ok st') :
    st'.txNum = st.txNum ∧ st'.blockNum = st.blockNum ∧ st'.stepSize = st.stepSize ∧
    st'.domains = st.domains ∧ st'.storage = st.storage ∧
    st'.pastChanges = [] ∧ st'.touches = [] ∧ st'.writer = fun _ => [] := by
  unfold Flush at h
  split at h
  · exact absurd h (by simp)
  · split at h
    · exact absurd h (by simp)
    · split at h
      · exact absurd h (by simp)
      · injection h with h'
        subst h'
        exact ⟨rfl, rfl, rfl, rfl, rfl, rfl, rfl, rfl⟩

/-! ### Claim theorems -/

/-- Claim C6: a successful Flush never modifies the in-memory read cache of
the overlay — every (domain, key) readable from the per-domain maps and the
sorted storage map before the flush reads the same value and step afterwards
— and ClearRam is what empties the cache. -/
theorem flush_preserves_overlay_cache (st : State) (env : FlushEnv) (st' : State)
    (h : Flush st env = .ok st') :
    (∀ d k, sdGet st' d k = sdGet st d k) ∧
    (∀ b d k, sdGet (ClearRam st' b) d k = none) := by
  obtain ⟨-, -, -, hd, hs, -, -, -⟩ := Flush_ok_frame st env st' h
  refine ⟨fun d k => get_eq_of_maps st st' hd hs d k, fun b d k => ?_⟩
  unfold sdGet ClearRam
  split <;> rfl

/-- Witness for C6 at a concrete overlay and all-success flush. -/
theorem flush_preserves_overlay_cache_witness :
    (∀ d k, sdGet c6State d k = sdGet stC d k) ∧
    (∀ b d k, sdGet (ClearRam c6State b) d k = none) :=
  flush_preserves_overlay_cache stC fe0 c6State rfl

/-- Claim C2: Unwind performs, in order, a flush, the native store unwind to
the target transaction, a ram clear with commitment reset, the transaction
and block number assignments, and one final flush; any failing step aborts
the remaining steps and surfaces that error. -/
theorem unwind_step_order (st : State) (env : UnwindEnv) (b t : Nat) :
    (∀ e stf, Flush st env.flush1 = .err e stf →
      Unwind st env b t = ([.flush], .err e stf)) ∧
    (∀ st1 e, Flush st env.flush1 = .ok st1 → env.storeUnwindErr = some e →
      Unwind st env b t = ([.flush, .storeUnwind t], .err e st1)) ∧
    (∀ st1 e stf, Flush st env.flush1 = .ok st1 → env.storeUnwindErr = none →
      Flush { ClearRam st1 true with txNum := t, blockNum := b } env.flush2 = .err e stf →
      Unwind st env b t =
        ([.flush, .storeUnwind t, .clearRam, .setTxNum t, .setBlockNum b, .flush],
          .err e stf)) ∧
    (∀ st1 st5, Flush st env.flush1 = .ok st1 → env.storeUnwindErr = none →
      Flush { ClearRam st1 true with txNum := t, blockNum := b } env.flush2 = .ok st5 →
      Unwind st env b t =
        ([.flush, .storeUnwind t, .clearRam, .setTxNum t, .setBlockNum b, .flush],
          .ok st5) ∧
      st5.txNum = t ∧ st5.blockNum = b ∧ ∀ d k, sdGet st5 d k = none) := by
  refine ⟨?_, ?_, ?_, ?_⟩
  · intro e stf h
    simp [Unwind, h]
  · intro st1 e h1 h2
    simp [Unwind, h1, h2]
  · intro st1 e stf h1 h2 h3
    simp [Unwind, h1, h2, h3]
  · intro st1 st5 h1 h2 h3
    obtain ⟨htx, hbn, -, hd, hs, -, -, -⟩ :=
      Flush_ok_frame { ClearRam st1 true with txNum := t, blockNum := b } env.flush2 st5 h3
    refine ⟨by simp [Unwind, h1, h2, h3], htx, hbn, fun d k => ?_⟩
    have hd' : st5.domains = fun _ => [] := hd
    have hs' : st5.storage = [] := hs
    unfold sdGet
    rw [hd', hs']
    split <;> rfl

/-- Witness for C2: a fully successful unwind to block 3, transaction 40. -/
theorem unwind_step_order_witness :
    Unwind initState env0 3 40 =
      ([.flush, .storeUnwind 40, .clearRam, .setTxNum 40, .setBlockNum 3, .flush],
        .ok c2State5) :=
  ((unwind_step_order initState env0 3 40).2.2.2 c2State1 c2State5 rfl rfl rfl).1

/-- Claim C7 counterexample: DomainPut with an empty but non-nil value does
not fail — it succeeds and caches the empty value in the overlay. -/
theorem domainPut_empty_value_accepted :
    (DomainPut initState store0 .Accounts [1] none (some []) (some [7]) 0).isOk = true ∧
    resGet (DomainPut initState store0 .Accounts [1] none (some []) (some [7]) 0)
      .Accounts [1] = some (some [], 0) :=
  ⟨rfl, rfl⟩

/-- Claim C7 (amended): DomainPut called with a nil value fails with an error
and leaves the overlay, write buffers and commitment context unchanged (the
error result carries the untouched state); an empty but non-nil value is
accepted as an ordinary value. -/
theorem domainPut_nil_value_rejected (st : State) (store : Store) (d : Domain)
    (k1 : Bytes) (prevVal : GoBytes) (prevStep : Nat) :
    DomainPut st store d k1 none none prevVal prevStep =
      .err ("DomainPut: " ++ domainName d ++ ", trying to put nil value. not allowed") st :=
  rfl

/-- Claim C9: DomainPut with a non-nil second key part panics unconditionally,
before the nil-value check and before any state change. -/
theorem domainPut_nonNil_k2_panics (st : State) (store : Store) (d : Domain)
    (k1 : Bytes) (k2 : GoBytes) (val prevVal : GoBytes) (prevStep : Nat)
    (h : k2 ≠ none) :
    DomainPut st store d k1 k2 val prevVal prevStep = .panicked := by
  cases k2 with
  | none => exact absurd rfl h
  | some _ => rfl

/-- Witness for C9 at a concrete call with a non-nil second key part. -/
theorem domainPut_nonNil_k2_panics_witness :
    DomainPut initState store0 .Accounts [1] (some [2]) (some [3]) none 0 = .panicked :=
  domainPut_nonNil_k2_panics initState store0 .Accounts [1] (some [2]) (some [3]) none 0
    (Option.some_ne_none _)

/-- Claim C10: a non-zero root takes the incremental path (resolving the
stored root node first and never clearing the trie table), while a zero root
delegates to the from-scratch rebuild, whose first action clears the entire
persisted verkle-trie table. -/
theorem commitVerkleTree_dispatch (env : VerkleEnv) (root : VHash) :
    (root ≠ zeroVHash →
      (CommitVerkleTree env root).1.head? = some (.readRootNode root) ∧
      VStep.clearTable ∉ (CommitVerkleTree env root).1) ∧
    (root = zeroVHash →
      CommitVerkleTree env root = CommitVerkleTreeFromScratch env ∧
      (CommitVerkleTreeFromScratch env).1.head? = some .clearTable) := by
  constructor
  · intro h
    unfold CommitVerkleTree
    rw [if_pos h]
    cases env.readRootErr <;> cases env.loadStagedErr <;> cases env.finalLoadErr <;>
      exact ⟨rfl, by simp⟩
  · intro h
    refine ⟨by unfold CommitVerkleTree; rw [if_neg (by simp [h])], ?_⟩
    unfold CommitVerkleTreeFromScratch
    cases env.clearTableErr <;> cases env.loadStagedErr <;> cases env.collectErr <;>
      cases env.finalLoadErr <;> rfl

/-- Witness for C10 at a concrete non-zero root. -/
theorem commitVerkleTree_dispatch_witness :
    (CommitVerkleTree venv0 root1).1.head? = some (.readRootNode root1) ∧
    VStep.clearTable ∉ (CommitVerkleTree venv0 root1).1 :=
  (commitVerkleTree_dispatch venv0 root1).1 (by decide)

/-- Claim C1 counterexample: on the Code domain a put whose value equals the
resolved previous value succeeds as a no-op — the overlay stays empty and a
subsequent GetLatest delegates to the underlying store (a different store
yields a different answer, with a step unrelated to the put time). -/
theorem domainPut_code_noop_delegates :
    DomainPut initState storeA .Code [9] none (some [1]) none 0 = .ok initState ∧
    sdGet initState .Code [9] = none ∧
    GetLatest initState storeB .Code [9] = .ok (some [2], 0) :=
  ⟨rfl, rfl, rfl⟩

/-- Claim C1 (amended): after a successful DomainPut of value V under key K,
GetLatest(D, K) answers V with the step recorded at put time from the
in-memory overlay alone — for any store — provided the put was not the
equal-value no-op of the Code or generic domains (for Accounts, Storage,
Commitment and RCache the proviso is vacuous). -/
theorem domainPut_caches_value (st : State) (store : Store) (d : Domain)
    (k : Bytes) (val prevArg : GoBytes) (prevStep : Nat) (p : GoBytes) (ps : Nat)
    (st' : State)
    (hres : resolvePrev st store d k prevArg prevStep = .ok (p, ps))
    (hok : DomainPut st store d k none val prevArg prevStep = .ok st')
    (hcache : goBytesEq p val = false ∨ d = .Accounts ∨ d = .Storage ∨
      d = .Commitment ∨ d = .RCache) :
    sdGet st' d k = some (val, st.txNum / st.stepSize) ∧
    ∀ store2, GetLatest st' store2 d k = .ok (val, st.txNum / st.stepSize) := by
  have hget : sdGet st' d k = some (val, st.txNum / st.stepSize) := by
    unfold DomainPut at hok
    cases val with
    | none => exact absurd hok (by simp)
    | some v =>
      rw [hres] at hok
      cases d with
      | Accounts =>
        simp only [] at hok
        injection hok with h'
        subst h'
        exact get_updateAccountData st k (some v) p ps
      | Storage =>
        simp only [] at hok
        injection hok with h'
        subst h'
        exact get_writeAccountStorage_nilLoc st k (some v) p ps
      | Code =>
        have hne : goBytesEq p (some v) = false := by
          rcases hcache with h | h | h | h | h
          · exact h
          all_goals exact absurd h (by simp)
        simp only [hne] at hok
        rw [if_neg (by simp)] at hok
        injection hok with h'
        subst h'
        exact get_updateAccountCode st k (some v) p ps
      | Commitment =>
        simp only [] at hok
        injection hok with h'
        subst h'
        rw [get_pushWriter]
        exact get_putMem_self st .Commitment k (some v)
      | RCache =>
        simp only [] at hok
        injection hok with h'
        subst h'
        rw [get_pushWriter]
        exact get_putMem_self st .RCache k (some v)
      | Receipt =>
        have hne : goBytesEq p (some v) = false := by
          rcases hcache with h | h | h | h | h
          · exact h
          all_goals exact absurd h (by simp)
        simp only [hne] at hok
        rw [if_neg (by simp)] at hok
        injection hok with h'
        subst h'
        rw [get_pushWriter]
        exact get_putMem_self st .Receipt k (some v)
  exact ⟨hget, fun store2 =>
    GetLatest_of_get st' store2 d k val (st.txNum / st.stepSize) hget⟩

/-- Witness for C1 at a concrete accounts put with caller-supplied previous
value. -/
theorem domainPut_caches_value_witness :
    sdGet c1State .Accounts [1] = some (some [2, 3], initState.txNum / initState.stepSize) ∧
    ∀ store2, GetLatest c1State store2 .Accounts [1] =
      .ok (some [2, 3], initState.txNum / initState.stepSize) :=
  domainPut_caches_value initState storeA .Accounts [1] (some [2, 3]) (some [9]) 0
    (some [9]) 0 c1State rfl rfl (Or.inr (Or.inl rfl))

/-! ### ReadsValid lemmas -/

theorem checkDomainList_ne_none (m : KVMap) :
    ∀ (ks : List Bytes) (vs : List GoBytes), ks.length = vs.length →
      checkDomainList m ks vs ≠ none := by
  intro ks
  induction ks with
  | nil => intro vs _ h; simp [checkDomainList] at h
  | cons k ks ih =>
    intro vs hl
    cases vs with
    | nil => simp at hl
    | cons v vs =>
      simp only [List.length_cons, Nat.succ.injEq] at hl
      unfold checkDomainList
      split
      · split
        · exact ih vs hl
        · simp
      · exact ih vs hl

theorem checkDomainList_false_iff (m : KVMap) :
    ∀ (ks : List Bytes) (vs : List GoBytes), ks.length = vs.length →
      (checkDomainList m ks vs = some false ↔
        ∃ kv ∈ ks.zip vs, ∃ d, mapGet m kv.1 = some d ∧ goBytesEq kv.2 d.data = false) := by
  intro ks
  induction ks with
  | nil => intro vs _; simp [checkDomainList]
  | cons k ks ih =>
    intro vs hl
    cases vs with
    | nil => simp at hl
    | cons v vs =>
      simp only [List.length_cons, Nat.succ.injEq] at hl
      unfold checkDomainList
      split
      · rename_i d0 hm
        split
        · rename_i hq0
          rw [ih vs hl]
          constructor
          · rintro ⟨kv, hkv, d, hd, hq⟩
            exact ⟨kv, List.mem_cons_of_mem _ hkv, d, hd, hq⟩
          · rintro ⟨kv, hkv, d, hd, hq⟩
            rcases List.mem_cons.mp hkv with h | h
            · subst h
              rw [hm] at hd
              injection hd with hd'
              subst hd'
              rw [hq0] at hq
              exact Bool.noConfusion hq
            · exact ⟨kv, h, d, hd, hq⟩
        · rename_i hq0
          refine ⟨fun _ => ⟨(k, v), List.mem_cons_self _ _, d0, hm,
            Bool.eq_false_iff.mpr hq0⟩, fun _ => rfl⟩
      · rename_i hm
        rw [ih vs hl]
        constructor
        · rintro ⟨kv, hkv, d, hd, hq⟩
          exact ⟨kv, List.mem_cons_of_mem _ hkv, d, hd, hq⟩
        · rintro ⟨kv, hkv, d, hd, hq⟩
          rcases List.mem_cons.mp hkv with h | h
          · subst h
            rw [hm] at hd
            exact Option.noConfusion hd
          · exact ⟨kv, h, d, hd, hq⟩

/-- Claim C3: ReadsValid over a read set whose tables are all genuine domain
names returns false exactly when some listed key is present in the
corresponding overlay map with a current value not byte-equal to the
recorded expected value; keys absent from the overlay never cause a false
result. -/
theorem readsValid_false_iff (st : State) (rl : List (String × KvList))
    (htab : ∀ e ∈ rl, e.1 = domainName .Accounts ∨ e.1 = domainName .Code ∨
      e.1 = domainName .Storage)
    (hlen : ∀ e ∈ rl, e.2.keys.length = e.2.vals.length) :
    ReadsValid st rl = some false ↔
      ∃ e ∈ rl, ∃ kv ∈ e.2.keys.zip e.2.vals, ∃ d,
        mapGet (overlayMapOf st e.1) kv.1 = some d ∧ goBytesEq kv.2 d.data = false := by
  induction rl with
  | nil => simp [ReadsValid]
  | cons e rest ih =>
    obtain ⟨t, l⟩ := e
    have htabh := htab (t, l) (List.mem_cons_self _ _)
    have hlenh := hlen (t, l) (List.mem_cons_self _ _)
    have ihr := ih (fun e he => htab e (List.mem_cons_of_mem _ he))
      (fun e he => hlen e (List.mem_cons_of_mem _ he))
    have hmap :
        (if t = domainName .Accounts then checkDomainList (st.domains .Accounts) l.keys l.vals
         else if t = domainName .Code then checkDomainList (st.domains .Code) l.keys l.vals
         else if t = domainName .Storage then checkDomainList st.storage l.keys l.vals
         else if t = CodeSizeTableFake then checkCodeSizeList (st.domains .Code) l.keys l.vals
         else none) = checkDomainList (overlayMapOf st t) l.keys l.vals := by
      rcases htabh with h | h | h <;>
        · replace h : t = _ := h
          subst h
          simp [overlayMapOf, domainName, CodeSizeTableFake]
    have hstep : ReadsValid st ((t, l) :: rest) =
        match checkDomainList (overlayMapOf st t) l.keys l.vals with
        | none => none
        | some false => some false
        | some true => ReadsValid st rest := by
      rw [← hmap]
      rfl
    rw [hstep]
    cases hc : checkDomainList (overlayMapOf st t) l.keys l.vals with
    | none => exact absurd hc (checkDomainList_ne_none _ _ _ hlenh)
    | some b =>
      cases b with
      | false =>
        refine ⟨fun _ => ?_, fun _ => rfl⟩
        obtain ⟨kv, hkv, d, hd, hq⟩ := (checkDomainList_false_iff _ _ _ hlenh).mp hc
        exact ⟨(t, l), List.mem_cons_self _ _, kv, hkv, d, hd, hq⟩
      | true =>
        rw [ihr]
        constructor
        · rintro ⟨e, he, w⟩
          exact ⟨e, List.mem_cons_of_mem _ he, w⟩
        · rintro ⟨e, he, w⟩
          rcases List.mem_cons.mp he with h | h
          · subst h
            obtain ⟨kv, hkv, d, hd, hq⟩ := w
            have hfalse : checkDomainList (overlayMapOf st t) l.keys l.vals = some false :=
              (checkDomainList_false_iff _ _ _ hlenh).mpr ⟨kv, hkv, d, hd, hq⟩
            rw [hc] at hfalse
            exact absurd (Option.some.inj hfalse) (by simp)
          · exact ⟨e, h, w⟩

/-- Witness for C3 at a concrete stale read set against a concrete overlay. -/
theorem readsValid_false_iff_witness :
    ReadsValid stC rl1 = some false ↔
      ∃ e ∈ rl1, ∃ kv ∈ e.2.keys.zip e.2.vals, ∃ d,
        mapGet (overlayMapOf stC e.1) kv.1 = some d ∧ goBytesEq kv.2 d.data = false :=
  readsValid_false_iff stC rl1
    (by intro e he; simp only [rl1, List.mem_singleton] at he; subst he; exact Or.inl rfl)
    (by intro e he; simp only [rl1, List.mem_singleton] at he; subst he; rfl)

/-! ### Storage prefix deletion lemmas -/

theorem pushWriter_storage (st : State) (d : Domain) (op : WOp) :
    (pushWriter st d op).storage = st.storage := rfl

theorem pushWriter_domains (st : State) (d : Domain) (op : WOp) :
    (pushWriter st d op).domains = st.domains := rfl

theorem touchKey_storage (st : State) (a : Domain) (b : Bytes) (c : GoBytes) :
    (touchKey st a b c).storage = st.storage := rfl

theorem touchKey_domains (st : State) (a : Domain) (b : Bytes) (c : GoBytes) :
    (touchKey st a b c).domains = st.domains := rfl

theorem putMem_domains_storage (st : State) (k : Bytes) (val : GoBytes) :
    (putMem st .Storage k val).domains = st.domains := by
  unfold putMem; rw [if_pos rfl]

theorem delAccountStorage_nilLoc_storage (st : State) (k : Bytes) (prev : GoBytes)
    (ps : Nat) : (delAccountStorage st k none prev ps).storage =
      mapSet st.storage k { data := none, prevStep := st.txNum / st.stepSize } := by
  show (putMem (touchKey st .Storage (k ++ goBytes none) none)
    .Storage (k ++ goBytes none) none).storage = _
  simp only [goBytes, List.append_nil]
  rw [putMem_storage_self]
  rfl

theorem delAccountStorage_nilLoc_domains (st : State) (k : Bytes) (prev : GoBytes)
    (ps : Nat) : (delAccountStorage st k none prev ps).domains = st.domains := by
  show (putMem (touchKey st .Storage (k ++ goBytes none) none)
    .Storage (k ++ goBytes none) none).domains = _
  rw [putMem_domains_storage]
  rfl

theorem delAccountStorage_nilLoc_txNum (st : State) (k : Bytes) (prev : GoBytes)
    (ps : Nat) : (delAccountStorage st k none prev ps).txNum = st.txNum := by
  show (putMem (touchKey st .Storage (k ++ goBytes none) none)
    .Storage (k ++ goBytes none) none).txNum = _
  rw [putMem_txNum]
  rfl

theorem delAccountStorage_nilLoc_stepSize (st : State) (k : Bytes) (prev : GoBytes)
    (ps : Nat) : (delAccountStorage st k none prev ps).stepSize = st.stepSize := by
  show (putMem (touchKey st .Storage (k ++ goBytes none) none)
    .Storage (k ++ goBytes none) none).stepSize = _
  rw [putMem_stepSize]
  rfl

theorem delAccountStorage_nilLoc_pastChanges (st : State) (k : Bytes) (prev : GoBytes)
    (ps : Nat) : (delAccountStorage st k none prev ps).pastChanges = st.pastChanges := by
  show (putMem (touchKey st .Storage (k ++ goBytes none) none)
    .Storage (k ++ goBytes none) none).pastChanges = _
  rw [putMem_pastChanges]
  rfl

theorem delTombs_spec (store : Store) :
    ∀ (L : List (Bytes × Bytes × Nat)) (st : State),
    ∃ st', delTombs store st L = .ok st' ∧
      st'.domains = st.domains ∧ st'.txNum = st.txNum ∧ st'.stepSize = st.stepSize ∧
      st'.pastChanges = st.pastChanges ∧
      (∀ k, (∃ e ∈ L, e.1 = k) →
        ∃ s, mapGet st'.storage k = some { data := none, prevStep := s }) ∧
      (∀ k, (∀ e ∈ L, e.1 ≠ k) → mapGet st'.storage k = mapGet st.storage k) := by
  intro L
  induction L with
  | nil =>
    intro st
    refine ⟨st, rfl, rfl, rfl, rfl, rfl, ?_, fun k _ => rfl⟩
    rintro k ⟨e, he, -⟩
    exact absurd he (List.not_mem_nil e)
  | cons e0 rest ih =>
    obtain ⟨k0, v0, s0⟩ := e0
    intro st
    have hstep : delTombs store st ((k0, v0, s0) :: rest) =
        delTombs store (delAccountStorage st k0 none (some v0) s0) rest := rfl
    obtain ⟨st', hok, hdom, htx, hss, hpc, hin, hout⟩ :=
      ih (delAccountStorage st k0 none (some v0) s0)
    refine ⟨st', by rw [hstep]; exact hok,
      by rw [hdom, delAccountStorage_nilLoc_domains],
      by rw [htx, delAccountStorage_nilLoc_txNum],
      by rw [hss, delAccountStorage_nilLoc_stepSize],
      by rw [hpc, delAccountStorage_nilLoc_pastChanges], ?_, ?_⟩
    · rintro k ⟨e, he, hek⟩
      rcases List.mem_cons.mp he with h | h
      · subst h
        simp only [] at hek
        subst hek
        by_cases hk : ∃ e ∈ rest, e.1 = k0
        · exact hin k0 hk
        · have hall : ∀ e ∈ rest, e.1 ≠ k0 := by
            intro e he' hek'
            exact hk ⟨e, he', hek'⟩
          rw [hout k0 hall, delAccountStorage_nilLoc_storage, mapGet_mapSet_self]
          exact ⟨st.txNum / st.stepSize, rfl⟩
      · exact hin k ⟨e, h, hek⟩
    · intro k hk
      have h0 : k0 ≠ k := hk (k0, v0, s0) (List.mem_cons_self _ _)
      rw [hout k (fun e he => hk e (List.mem_cons_of_mem _ he)),
        delAccountStorage_nilLoc_storage, mapGet_mapSet_ne _ _ _ _ (Ne.symm h0)]

theorem mem_ramLiveUnder (st : State) (p k : Bytes) (v : Bytes) (s : Nat)
    (hp : p.isPrefixOf k = true)
    (hm : mapGet st.storage k = some { data := some v, prevStep := s }) :
    (k, v, s) ∈ ramLiveUnder st p := by
  unfold ramLiveUnder
  rw [List.mem_filterMap]
  exact ⟨k, mem_keys_of_mapGet _ _ _ hm, by simp [hp, hm]⟩

theorem mem_diskUnder (st : State) (store : Store) (p k : Bytes) (v : Bytes) (s : Nat)
    (hp : p.isPrefixOf k = true)
    (he : (k, v, s) ∈ store.storageEntries) (hm : mapGet st.storage k = none) :
    (k, v, s) ∈ diskUnder st store p := by
  unfold diskUnder
  rw [List.mem_filter]
  exact ⟨he, by simp [hp, hm]⟩

theorem delPrefixStorage_spec (st : State) (store : Store) (p : Bytes) :
    ∃ st', DomainDelPrefixFn st store .Storage p = .ok st' ∧
      st'.domains = st.domains ∧ st'.txNum = st.txNum ∧ st'.stepSize = st.stepSize ∧
      st'.pastChanges = st.pastChanges ∧
      (∀ k, (∃ e ∈ mergedPrefixEntries st store p, e.1 = k) →
        ∃ s, mapGet st'.storage k = some { data := none, prevStep := s }) ∧
      (∀ k, (∀ e ∈ mergedPrefixEntries st store p, e.1 ≠ k) →
        mapGet st'.storage k = mapGet st.storage k) := by
  obtain ⟨st', hok, h1, h2, h3, h4, h5, h6⟩ :=
    delTombs_spec store (mergedPrefixEntries st store p) st
  exact ⟨st', hok, h1, h2, h3, h4, h5, h6⟩

theorem delPrefixStorage_post (st : State) (store : Store) (p : Bytes) (st' : State)
    (h : DomainDelPrefixFn st store .Storage p = .ok st') :
    (∀ k d, p.isPrefixOf k = true → mapGet st'.storage k = some d → d.data = none) ∧
    mergedPrefixEntries st' store p = [] := by
  obtain ⟨st'', hok, -, -, -, -, hin, hout⟩ := delPrefixStorage_spec st store p
  rw [h] at hok
  have hst : st' = st'' := Res.ok.inj hok
  subst hst
  have partA : ∀ k d, p.isPrefixOf k = true → mapGet st'.storage k = some d →
      d.data = none := by
    intro k d hp hm
    by_cases hk : ∃ e ∈ mergedPrefixEntries st store p, e.1 = k
    · obtain ⟨s, hms⟩ := hin k hk
      rw [hm] at hms
      injection hms with hms'
      rw [hms']
    · have hall : ∀ e ∈ mergedPrefixEntries st store p, e.1 ≠ k := by
        intro e he' hek'
        exact hk ⟨e, he', hek'⟩
      have hsame := hout k hall
      rw [hm] at hsame
      obtain ⟨dd, ds⟩ := d
      cases dd with
      | none => rfl
      | some v =>
        have hmem : (k, v, ds) ∈ ramLiveUnder st p :=
          mem_ramLiveUnder st p k v ds hp hsame.symm
        exact absurd ⟨(k, v, ds), List.mem_append_left _ hmem, rfl⟩ hk
  refine ⟨partA, ?_⟩
  unfold mergedPrefixEntries
  have hram : ramLiveUnder st' p = [] := by
    unfold ramLiveUnder
    rw [List.filterMap_eq_nil_iff]
    intro a ha
    by_cases hp' : p.isPrefixOf a = true
    · obtain ⟨d, hd⟩ := mapGet_isSome_of_mem_keys _ _ ha
      have hdata := partA a d hp' hd
      obtain ⟨dd, ds⟩ := d
      simp only [] at hdata
      subst hdata
      simp [hp', hd]
    · simp [hp']
  have hdisk : diskUnder st' store p = [] := by
    unfold diskUnder
    rw [List.filter_eq_nil_iff]
    rintro ⟨ek, ev, es⟩ he hcond
    rw [Bool.and_eq_true] at hcond
    obtain ⟨hp', hnone⟩ := hcond
    rw [Option.isNone_iff_eq_none] at hnone
    have hek : ¬ ∃ e ∈ mergedPrefixEntries st store p, e.1 = ek := by
      rintro hk
      obtain ⟨s, hms⟩ := hin ek hk
      rw [hnone] at hms
      exact Option.noConfusion hms
    have hall : ∀ e ∈ mergedPrefixEntries st store p, e.1 ≠ ek := by
      intro e he' hek'
      exact hek ⟨e, he', hek'⟩
    have hst0 : mapGet st.storage ek = none := by
      rw [← hout ek hall]
      exact hnone
    have hmem : (ek, ev, es) ∈ diskUnder st store p :=
      mem_diskUnder st store p ek ev es hp' he hst0
    exact hek ⟨(ek, ev, es), List.mem_append_right _ hmem, rfl⟩
  rw [hram, hdisk]
  rfl

theorem resolvePrev_nil (st : State) (store : Store) (d : Domain) (k : Bytes)
    (ps : Nat) : resolvePrev st store d k none ps = GetLatest st store d k := rfl

theorem DomainDel_eq_err (st : State) (store : Store) (d : Domain) (k : Bytes)
    (prevArg : GoBytes) (prevStep : Nat) (e : String)
    (hres : resolvePrev st store d k prevArg prevStep = .error e) :
    DomainDel st store d k prevArg prevStep = .err e st := by
  unfold DomainDel
  rw [hres]

theorem DomainDel_accounts_eq (st : State) (store : Store) (A : Bytes)
    (prevArg : GoBytes) (prevStep : Nat) (prev : GoBytes) (pstep : Nat)
    (hres : resolvePrev st store .Accounts A prevArg prevStep = .ok (prev, pstep)) :
    DomainDel st store .Accounts A prevArg prevStep = deleteAccount st store A prev pstep := by
  unfold DomainDel
  rw [hres]

theorem updateAccountCode_storage (st : State) (addr : Bytes) (code prev : GoBytes)
    (ps : Nat) : (updateAccountCode st addr code prev ps).storage = st.storage := by
  unfold updateAccountCode
  split <;>
  · rw [pushWriter_storage, putMem_storage_ne _ _ _ _ (by decide), touchKey_storage]

theorem updateAccountCode_domains_code (st : State) (addr : Bytes) (code prev : GoBytes)
    (ps : Nat) : (updateAccountCode st addr code prev ps).domains .Code =
      mapSet (st.domains .Code) addr { data := code, prevStep := st.txNum / st.stepSize } := by
  unfold updateAccountCode
  split <;>
  · rw [pushWriter_domains, putMem_domains_self _ _ _ _ (by decide)]
    rfl

/-- Claim C5: after a successful storage prefix delete, iterating the same
prefix through the merged overlay/store view yields zero entries. -/
theorem domainDelPrefix_clears_iteration (st : State) (store : Store) (p : Bytes)
    (st' : State) (h : DomainDelPrefixFn st store .Storage p = .ok st') :
    mergedPrefixEntries st' store p = [] :=
  (delPrefixStorage_post st store p st' h).2

/-- Witness for C5 at a concrete overlay with one live in-memory and one
store-side storage entry under the prefix. -/
theorem domainDelPrefix_clears_iteration_witness :
    mergedPrefixEntries c5State storeC [1] = [] :=
  domainDelPrefix_clears_iteration stC storeC [1] c5State rfl

/-- Claim C4: a successful account delete leaves no live storage entry under
the account key and no live code entry for it in the overlay — every
remaining overlay record under the account is a deletion marker. -/
theorem domainDel_accounts_cascades (st : State) (store : Store) (A : Bytes)
    (prevArg : GoBytes) (prevStep : Nat) (st' : State)
    (h : DomainDel st store .Accounts A prevArg prevStep = .ok st') :
    (∀ k d, A.isPrefixOf k = true → mapGet st'.storage k = some d → d.data = none) ∧
    (∀ d, mapGet (st'.domains .Code) A = some d → d.data = none) := by
  cases hres : resolvePrev st store .Accounts A prevArg prevStep with
  | error e =>
    rw [DomainDel_eq_err st store .Accounts A prevArg prevStep e hres] at h
    exact absurd h (by simp)
  | ok pr =>
    obtain ⟨prev, pstep⟩ := pr
    rw [DomainDel_accounts_eq st store A prevArg prevStep prev pstep hres] at h
    obtain ⟨st1, hok1, -, -, -, -, -, -⟩ := delPrefixStorage_spec st store A
    unfold deleteAccount at h
    simp only [hok1] at h
    cases hGL : GetLatest st1 store .Code A with
    | error e2 =>
      have hdc : domainDelCode st1 store A none pstep = .err e2 st1 := by
        unfold domainDelCode
        rw [resolvePrev_nil, hGL]
      simp only [hdc] at h
      exact absurd h (by simp)
    | ok pr2 =>
      obtain ⟨prev2, ps2⟩ := pr2
      by_cases hprev2 : prev2 = none
      · -- code previous value resolved to nil: no code rewrite happened
        have hdc : domainDelCode st1 store A none pstep = .ok st1 := by
          unfold domainDelCode
          rw [resolvePrev_nil, hGL]
          show (if prev2 = none then Res.ok st1
            else Res.ok (updateAccountCode st1 A none prev2 ps2)) = Res.ok st1
          rw [if_pos hprev2]
        simp only [hdc] at h
        have hst' : pushWriter (putMem (touchKey st1 .Accounts A none) .Accounts A none)
            .Accounts (.del A st1.txNum prev pstep) = st' := Res.ok.inj h
        have hs' : st'.storage = st1.storage := by
          rw [← hst', pushWriter_storage, putMem_storage_ne _ _ _ _ (by decide),
            touchKey_storage]
        have hdcode' : st'.domains .Code = st1.domains .Code := by
          rw [← hst', pushWriter_domains, putMem_domains_ne _ _ _ _ _ (by decide),
            touchKey_domains]
        subst hprev2
        refine ⟨?_, ?_⟩
        · intro k d hp hm
          rw [hs'] at hm
          exact (delPrefixStorage_post st store A st1 hok1).1 k d hp hm
        · intro d hd
          rw [hdcode'] at hd
          have hsd : sdGet st1 .Code A = some (d.data, d.prevStep) := by
            unfold sdGet
            rw [if_neg (by decide), hd]
            rfl
          have hGL2 : GetLatest st1 store .Code A = .ok (d.data, d.prevStep) :=
            GetLatest_of_get st1 store .Code A d.data d.prevStep hsd
          have hcmp := hGL.symm.trans hGL2
          injection hcmp with h3
          exact (congrArg Prod.fst h3).symm
      · -- code previous value present: code entry rewritten to nil
        have hdc : domainDelCode st1 store A none pstep =
            .ok (updateAccountCode st1 A none prev2 ps2) := by
          unfold domainDelCode
          rw [resolvePrev_nil, hGL]
          show (if prev2 = none then Res.ok st1
            else Res.ok (updateAccountCode st1 A none prev2 ps2)) = _
          rw [if_neg hprev2]
        simp only [hdc] at h
        have hst' : pushWriter
            (putMem (touchKey (updateAccountCode st1 A none prev2 ps2) .Accounts A none)
              .Accounts A none)
            .Accounts (.del A (updateAccountCode st1 A none prev2 ps2).txNum prev pstep) =
            st' := Res.ok.inj h
        have hs' : st'.storage = st1.storage := by
          rw [← hst', pushWriter_storage, putMem_storage_ne _ _ _ _ (by decide),
            touchKey_storage, updateAccountCode_storage]
        have hdcode' : st'.domains .Code =
            mapSet (st1.domains .Code) A { data := none, prevStep := st1.txNum / st1.stepSize } := by
          rw [← hst', pushWriter_domains, putMem_domains_ne _ _ _ _ _ (by decide),
            touchKey_domains, updateAccountCode_domains_code]
        refine ⟨?_, ?_⟩
        · intro k d hp hm
          rw [hs'] at hm
          exact (delPrefixStorage_post st store A st1 hok1).1 k d hp hm
        · intro d hd
          rw [hdcode', mapGet_mapSet_self] at hd
          injection hd with hd'
          rw [← hd']

/-- Witness for C4 at a concrete overlay holding storage and code entries
under the deleted account key. -/
theorem domainDel_accounts_cascades_witness :
    (∀ k d, List.isPrefixOf [1] k = true → mapGet c4State.storage k = some d →
      d.data = none) ∧
    (∀ d, mapGet (c4State.domains .Code) [1] = some d → d.data = none) :=
  domainDel_accounts_cascades stC storeC [1] (some [9]) 0 c4State rfl

/-! ### Verkle account-leaf encoding lemmas -/

theorem drop_set_eq_cons (l : Bytes) (n a : Nat) (h : n < l.length) :
    (l.set n a).drop n = a :: l.drop (n + 1) := by
  induction l generalizing n with
  | nil => simp at h
  | cons x xs ih =>
    cases n with
    | zero => rfl
    | succ m =>
      show (xs.set m a).drop m = a :: xs.drop (m + 1)
      exact ih m (by simpa using h)

theorem int256Write_spec : ∀ (bb buf : Bytes), bb.length ≤ buf.length →
    int256Write bb buf = bb.reverse ++ buf.drop bb.length := by
  intro bb
  induction bb with
  | nil => intro buf _; simp [int256Write]
  | cons b rest ih =>
    intro buf h
    have hlt : rest.length < buf.length := Nat.lt_of_lt_of_le (Nat.lt_succ_self _) h
    show int256Write rest (buf.set rest.length b) =
      (b :: rest).reverse ++ buf.drop (rest.length + 1)
    rw [ih (buf.set rest.length b) (by rw [List.length_set]; exact Nat.le_of_lt hlt)]
    rw [drop_set_eq_cons buf rest.length b hlt]
    simp [List.reverse_cons, List.append_assoc]

theorem leBytes_length_le : ∀ (k n : Nat), n < 256 ^ k → (leBytes n).length ≤ k := by
  intro k
  induction k with
  | zero =>
    intro n h
    have hn : n = 0 := Nat.lt_one_iff.mp (by simpa using h)
    subst hn
    rw [leBytes]
    simp
  | succ m ih =>
    intro n h
    rw [leBytes]
    split
    · simp
    · rename_i hn
      simp only [List.length_cons]
      have hdiv : n / 256 < 256 ^ m := by
        rw [Nat.div_lt_iff_lt_mul (by norm_num)]
        calc n < 256 ^ (m + 1) := h
        _ = 256 ^ m * 256 := by ring
      exact Nat.succ_le_succ (ih _ hdiv)

theorem set_append_len (l : Bytes) (a b : Nat) :
    (l ++ [a]).set l.length b = l ++ [b] := by
  induction l with
  | nil => rfl
  | cons x xs ih =>
    show x :: (xs ++ [a]).set xs.length b = x :: (xs ++ [b])
    rw [ih]

theorem leafSubKey_eq (vk : Bytes) (leaf : Nat) (h : vk.length = 32) :
    leafSubKey vk leaf = vk.take 31 ++ [leaf] := by
  have h31 : (vk.take 31).length = 31 := by
    rw [List.length_take, h]
    norm_num
  have hmin : min (List.replicate 32 (0 : Nat)).length (vk.take 31).length = 31 := by
    rw [List.length_replicate, h31]
    norm_num
  unfold leafSubKey goCopy
  rw [hmin, List.take_of_length_le (by rw [h31])]
  have hdrop : (List.replicate 32 (0 : Nat)).drop 31 = [0] := rfl
  rw [hdrop]
  have hset := set_append_len (vk.take 31) 0 leaf
  rw [h31] at hset
  exact hset

theorem int256ToVerkleFormat_eq (x : Nat) (hx : x < 2 ^ 256) :
    int256ToVerkleFormat x (List.replicate 32 0) =
      (beBytes x).reverse ++ List.replicate (32 - (beBytes x).length) 0 := by
  have hlen : (beBytes x).length ≤ 32 := by
    rw [beBytes, List.length_reverse]
    exact leBytes_length_le 32 x (by
      rw [show (256 : Nat) ^ 32 = 2 ^ 256 by norm_num]
      exact hx)
  unfold int256ToVerkleFormat
  rw [int256Write_spec (beBytes x) (List.replicate 32 0)
    (by rw [List.length_replicate]; exact hlen)]
  rw [List.drop_replicate]

/-- Claim C8: UpdateAccount stages the version marker and, derived from the
version key, the nonce and balance leaves always plus the code-hash and
code-size leaves exactly when the account is a contract; nonce and code size
are 8-byte little-endian integers in zero-padded 32-byte buffers, and the
balance is the big-endian big-integer byte string written reversed into a
32-byte buffer. -/
theorem updateAccount_staging (vk : Bytes) (cs : Nat) (ic : Bool) (acc : Account)
    (hvk : vk.length = 32) (hbal : acc.balance < 2 ^ 256) :
    UpdateAccount vk cs ic acc =
      [(vk, [0]),
       (vk.take 31 ++ [NonceLeafKey], u64LE acc.nonce ++ List.replicate 24 0),
       (vk.take 31 ++ [BalanceLeafKey],
         (beBytes acc.balance).reverse ++
           List.replicate (32 - (beBytes acc.balance).length) 0)] ++
      (if ic then
        [(vk.take 31 ++ [CodeKeccakLeafKey], acc.codeHash),
         (vk.take 31 ++ [CodeSizeLeafKey], u64LE cs ++ List.replicate 24 0)]
      else []) := by
  have hnonce : putUint64LE (List.replicate 32 0) acc.nonce =
      u64LE acc.nonce ++ List.replicate 24 0 := rfl
  have hcs : putUint64LE (List.replicate 32 0) cs =
      u64LE cs ++ List.replicate 24 0 := rfl
  simp only [UpdateAccount, leafSubKey_eq vk NonceLeafKey hvk,
    leafSubKey_eq vk BalanceLeafKey hvk, leafSubKey_eq vk CodeKeccakLeafKey hvk,
    leafSubKey_eq vk CodeSizeLeafKey hvk, hnonce, hcs,
    int256ToVerkleFormat_eq acc.balance hbal]

/-- Witness for C8 at a concrete contract account. -/
theorem updateAccount_staging_witness :
    UpdateAccount vkW 7 true { nonce := 5, balance := 300, codeHash := List.replicate 32 9 } =
      [(vkW, [0]),
       (vkW.take 31 ++ [NonceLeafKey], u64LE 5 ++ List.replicate 24 0),
       (vkW.take 31 ++ [BalanceLeafKey],
         (beBytes 300).reverse ++ List.replicate (32 - (beBytes 300).length) 0)] ++
      (if true then
        [(vkW.take 31 ++ [CodeKeccakLeafKey], List.replicate 32 9),
         (vkW.take 31 ++ [CodeSizeLeafKey], u64LE 7 ++ List.replicate 24 0)]
      else []) :=
  updateAccount_staging vkW 7 true
    { nonce := 5, balance := 300, codeHash := List.replicate 32 9 }
    (by simp [vkW]) (by norm_num)
